import Mathlib

/-!
Verification development for the pike task-pipeline engine.

Shallow embedding of the core graph machinery of `pike/graph.py`,
`pike/nodes/base.py`, `pike/nodes/watch.py` and `pike/env.py`.
Nodes are identified by natural-number ids; the per-node `ein`/`eout`
edge lists of the Python objects are recovered from a global edge list
kept in creation order.
-/

namespace Pike

/-- Edge (nodes/base.py): a connection between two nodes.  Builder-phase
half-edges (a missing endpoint) never reach the graph algorithms modelled
here, so both endpoints are total. -/
structure Edge where
  n1 : Nat
  n2 : Nat
  output_name : String := "default"
  input_name : Option String := none
deriving DecidableEq, Repr

/-- Inbound edges of a node, in creation order (the Python `node.ein` list). -/
def ein (edges : List Edge) (n : Nat) : List Edge :=
  edges.filter (fun e => e.n2 == n)

/-- Outbound edges of a node, in creation order (the Python `node.eout` list). -/
def eout (edges : List Edge) (n : Nat) : List Edge :=
  edges.filter (fun e => e.n1 == n)

theorem mem_ein {edges : List Edge} {n : Nat} {e : Edge} :
    e ∈ ein edges n ↔ e ∈ edges ∧ e.n2 = n := by
  simp [ein]

theorem mem_eout {edges : List Edge} {n : Nat} {e : Edge} :
    e ∈ eout edges n ↔ e ∈ edges ∧ e.n1 = n := by
  simp [eout]

/-- The source set computed by `init_topo_sort` (graph.py 24-54): the
registered nodes without inbound edges.  For a graph whose edges connect
registered nodes (the only graphs `Graph.finalize` passes in) the Python
reachability walk finds exactly the registered nodes, and its inbound-edge
map holds exactly the full edge list keyed by sink, so that walk reduces to
this filter.  The Python value is a set; the list fixes one iteration
order. -/
def initSources (nodes : List Nat) (edges : List Edge) : List Nat :=
  nodes.filter (fun n => (ein edges n).isEmpty)

/-- One step of the inner loop of `topo_sort` (graph.py 65-69): drop the
out-edge from the remaining inbound-edge map and enqueue its sink once the
sink has no remaining inbound edges.  The membership guard is a totality
device: in every state the loop reaches the edge is still present (Python
would raise a KeyError otherwise). -/
def drainStep (acc : List Nat × List Edge) (e : Edge) : List Nat × List Edge :=
  if e ∈ acc.2 then
    if (ein (acc.2.erase e) e.n2).isEmpty then (acc.1 ++ [e.n2], acc.2.erase e)
    else (acc.1, acc.2.erase e)
  else acc

/-- Process all out-edges of a popped node (graph.py 65-69). -/
def drain (es : List Edge) (q : List Nat) (r : List Edge) : List Nat × List Edge :=
  es.foldl drainStep (q, r)

theorem drainStep_length (acc : List Nat × List Edge) (e : Edge) :
    (drainStep acc e).1.length + (drainStep acc e).2.length ≤
      acc.1.length + acc.2.length := by
  unfold drainStep
  by_cases h : e ∈ acc.2
  · simp only [if_pos h]
    have hl : (acc.2.erase e).length = acc.2.length - 1 :=
      List.length_erase_of_mem h
    have hpos : 0 < acc.2.length := List.length_pos.mpr (List.ne_nil_of_mem h)
    by_cases h2 : (ein (acc.2.erase e) e.n2).isEmpty
    · simp only [if_pos h2]
      simp only [List.length_append, List.length_cons, List.length_nil, hl]
      omega
    · simp only [if_neg h2, hl]
      omega
  · simp [if_neg h]

theorem drain_length (es : List Edge) (q : List Nat) (r : List Edge) :
    (drain es q r).1.length + (drain es q r).2.length ≤ q.length + r.length := by
  induction es generalizing q r with
  | nil => simp [drain]
  | cons e es ih =>
    have h1 := drainStep_length (q, r) e
    have h2 := ih (drainStep (q, r) e).1 (drainStep (q, r) e).2
    simp only [drain, List.foldl_cons, Prod.mk.eta] at *
    omega

theorem drain_nil (q : List Nat) (r : List Edge) : drain [] q r = (q, r) := rfl

theorem drain_cons (e : Edge) (es : List Edge) (q : List Nat) (r : List Edge) :
    drain (e :: es) q r = drain es (drainStep (q, r) e).1 (drainStep (q, r) e).2 := by
  simp [drain, Prod.mk.eta]

theorem drainStep_rem_of_mem {acc : List Nat × List Edge} {e : Edge}
    (h : e ∈ acc.2) : (drainStep acc e).2 = acc.2.erase e := by
  unfold drainStep
  simp only [if_pos h]
  split <;> rfl

theorem drainStep_of_not_mem {acc : List Nat × List Edge} {e : Edge}
    (h : e ∉ acc.2) : drainStep acc e = acc := by
  unfold drainStep
  simp [if_neg h]

theorem drain_rem_sublist (es : List Edge) (q : List Nat) (r : List Edge) :
    List.Sublist (drain es q r).2 r := by
  induction es generalizing q r with
  | nil => simp [drain]
  | cons e es ih =>
    rw [drain_cons]
    refine (ih _ _).trans ?_
    by_cases h : e ∈ r
    · rw [drainStep_rem_of_mem h]
      exact List.erase_sublist e r
    · rw [drainStep_of_not_mem h]

theorem drain_queue_mono {es : List Edge} {q : List Nat} {r : List Edge} {m : Nat}
    (h : m ∈ q) : m ∈ (drain es q r).1 := by
  induction es generalizing q r with
  | nil => simpa [drain]
  | cons e es ih =>
    rw [drain_cons]
    refine ih ?_
    unfold drainStep
    split
    · split
      · simp [h]
      · exact h
    · exact h

theorem drain_queue_new {es : List Edge} {q : List Nat} {r : List Edge} {m : Nat}
    (h : m ∈ (drain es q r).1) : m ∈ q ∨ ∃ e, e ∈ es ∧ e.n2 = m := by
  induction es generalizing q r with
  | nil => simp only [drain_nil] at h; exact Or.inl h
  | cons e es ih =>
    rw [drain_cons] at h
    rcases ih h with hq | ⟨e2, he2, hn2⟩
    · unfold drainStep at hq
      split at hq
      · split at hq
        · rcases List.mem_append.mp hq with h1 | h1
          · exact Or.inl h1
          · exact Or.inr ⟨e, List.mem_cons_self e es, (List.mem_singleton.mp h1).symm⟩
        · exact Or.inl hq
      · exact Or.inl hq
    · exact Or.inr ⟨e2, List.mem_cons_of_mem e he2, hn2⟩

theorem drain_rem_mem {es : List Edge} {q : List Nat} {r : List Edge}
    (hr : r.Nodup) (hes : es.Nodup) (hsub : ∀ e ∈ es, e ∈ r) :
    ∀ x, x ∈ (drain es q r).2 ↔ x ∈ r ∧ x ∉ es := by
  induction es generalizing q r with
  | nil => simp [drain]
  | cons e es ih =>
    intro x
    rw [drain_cons]
    have hmem : e ∈ r := hsub e (List.mem_cons_self e es)
    rw [show (drainStep (q, r) e).2 = r.erase e from drainStep_rem_of_mem hmem]
    have hr2 : (r.erase e).Nodup := hr.erase e
    have hes2 : es.Nodup := (List.nodup_cons.mp hes).2
    have hne : e ∉ es := (List.nodup_cons.mp hes).1
    have hsub2 : ∀ e2 ∈ es, e2 ∈ r.erase e := by
      intro e2 he2
      refine (hr.mem_erase_iff).mpr ⟨?_, hsub e2 (List.mem_cons_of_mem e he2)⟩
      intro hcontra
      exact hne (hcontra ▸ he2)
    rw [ih hr2 hes2 hsub2 x, hr.mem_erase_iff]
    constructor
    · rintro ⟨⟨hxe, hxr⟩, hxes⟩
      exact ⟨hxr, by simp [hxe, hxes]⟩
    · rintro ⟨hxr, hxes⟩
      simp only [List.mem_cons, not_or] at hxes
      exact ⟨⟨hxes.1, hxr⟩, hxes.2⟩

theorem drain_queue_good {es : List Edge} {q : List Nat} {r : List Edge}
    (hq : q.Nodup) (hready : ∀ m ∈ q, ∀ e ∈ r, e.n2 ≠ m) :
    (drain es q r).1.Nodup ∧
      ∀ m ∈ (drain es q r).1, ∀ e ∈ (drain es q r).2, e.n2 ≠ m := by
  induction es generalizing q r with
  | nil =>
    simp only [drain_nil]
    exact ⟨hq, hready⟩
  | cons e es ih =>
    rw [drain_cons]
    by_cases hmem : e ∈ r
    · rw [drainStep_rem_of_mem hmem]
      have hq1 : (drainStep (q, r) e).1 = q ∨
          ((drainStep (q, r) e).1 = q ++ [e.n2] ∧ ∀ e2 ∈ r.erase e, e2.n2 ≠ e.n2) := by
        unfold drainStep
        simp only [if_pos hmem]
        split
        · rename_i hempty
          refine Or.inr ⟨rfl, ?_⟩
          intro e2 he2 hn2
          have : e2 ∈ ein (r.erase e) e.n2 := mem_ein.mpr ⟨he2, hn2⟩
          rw [List.isEmpty_iff.mp hempty] at this
          exact absurd this (List.not_mem_nil e2)
        · exact Or.inl rfl
      rcases hq1 with h1 | ⟨h1, hnone⟩
      · rw [h1]
        refine ih hq ?_
        intro m hm e2 he2
        exact hready m hm e2 (List.mem_of_mem_erase he2)
      · rw [h1]
        have hnotq : e.n2 ∉ q := by
          intro hcontra
          exact hready e.n2 hcontra e hmem rfl
        refine ih ?_ ?_
        · simp [List.nodup_append, hq, hnotq]
        · intro m hm e2 he2
          rcases List.mem_append.mp hm with hmq | hms
          · exact hready m hmq e2 (List.mem_of_mem_erase he2)
          · rw [List.mem_singleton.mp hms]
            exact hnone e2 he2
    · rw [drainStep_of_not_mem hmem]
      exact ih hq hready

theorem drain_new_inbound {es : List Edge} {q : List Nat} {r : List Edge} {m : Nat}
    (h : m ∈ (drain es q r).1) (hnq : m ∉ q) : ∃ e, e ∈ r ∧ e.n2 = m := by
  induction es generalizing q r with
  | nil => simp only [drain_nil] at h; exact absurd h hnq
  | cons e es ih =>
    rw [drain_cons] at h
    by_cases hmem : e ∈ r
    · by_cases hq : m ∈ (drainStep (q, r) e).1
      · have : (drainStep (q, r) e).1 = q ∨ (drainStep (q, r) e).1 = q ++ [e.n2] := by
          unfold drainStep
          simp only [if_pos hmem]
          split
          · exact Or.inr rfl
          · exact Or.inl rfl
        rcases this with h1 | h1
        · rw [h1] at hq; exact absurd hq hnq
        · rw [h1] at hq
          rcases List.mem_append.mp hq with h2 | h2
          · exact absurd h2 hnq
          · exact ⟨e, hmem, (List.mem_singleton.mp h2).symm⟩
      · obtain ⟨e2, he2, hn2⟩ := ih h hq
        rw [drainStep_rem_of_mem hmem] at he2
        exact ⟨e2, List.mem_of_mem_erase he2, hn2⟩
    · rw [drainStep_of_not_mem hmem] at h
      exact ih h hnq

theorem drain_pending {es : List Edge} {q : List Nat} {r : List Edge} {m : Nat}
    (h : ∃ e, e ∈ r ∧ e.n2 = m) :
    (∃ e, e ∈ (drain es q r).2 ∧ e.n2 = m) ∨ m ∈ (drain es q r).1 := by
  induction es generalizing q r with
  | nil => simp only [drain_nil]; exact Or.inl h
  | cons e es ih =>
    obtain ⟨e0, he0, hn0⟩ := h
    rw [drain_cons]
    by_cases hmem : e ∈ r
    · by_cases heq : e0 = e
      · subst heq
        have : (drainStep (q, r) e0).1 = q ++ [e0.n2] ∨
            ∃ e2, e2 ∈ (drainStep (q, r) e0).2 ∧ e2.n2 = e0.n2 := by
          unfold drainStep
          simp only [if_pos hmem]
          split
          · exact Or.inl rfl
          · rename_i hempty
            have hne : ein (r.erase e0) e0.n2 ≠ [] := by
              intro hc
              exact hempty (by rw [hc]; rfl)
            obtain ⟨e2, he2⟩ := List.exists_mem_of_ne_nil _ hne
            exact Or.inr ⟨e2, (mem_ein.mp he2).1, (mem_ein.mp he2).2⟩
        rcases this with h1 | ⟨e2, he2, hn2⟩
        · right
          refine drain_queue_mono ?_
          rw [h1]
          simp [hn0]
        · rw [hn0] at hn2
          exact ih ⟨e2, he2, hn2⟩
      · refine ih ⟨e0, ?_, hn0⟩
        rw [drainStep_rem_of_mem hmem]
        exact (List.mem_erase_of_ne heq).mpr he0
    · rw [drainStep_of_not_mem hmem]
      exact ih ⟨e0, he0, hn0⟩

/-- The main loop of `topo_sort` (graph.py 62-69).  Python pops from a set;
the list fixes one pop order (head first).  Recursion is by fuel; the fuel
branch returns the same value as the exhausted-queue branch, and
`topo_sort` passes fuel that is never exhausted before the queue empties
(one pop consumes one fuel, and the pop count is bounded by the initial
queue plus one enqueue per drained edge). -/
def topoLoop (edges : List Edge) : Nat → List Nat → List Edge → List Nat →
    List Nat × List Edge
  | 0, _, rem, out => (out, rem)
  | _ + 1, [], rem, out => (out, rem)
  | fuel + 1, n :: q, rem, out =>
    let s := drain (eout edges n) q rem
    topoLoop edges fuel s.1 s.2 (out ++ [n])

/-- Kahn topological sort, `topo_sort` (graph.py 57-73): raise when edges
remain after the queue drains. -/
def topo_sort (nodes : List Nat) (edges : List Edge) : Except String (List Nat) :=
  if (topoLoop edges ((initSources nodes edges).length + edges.length)
      (initSources nodes edges) edges []).2.isEmpty then
    .ok (topoLoop edges ((initSources nodes edges).length + edges.length)
      (initSources nodes edges) edges []).1
  else .error "Graph has at least one cycle!"

theorem indexOf_append_of_mem {l1 l2 : List Nat} {a : Nat} (h : a ∈ l1) :
    (l1 ++ l2).indexOf a = l1.indexOf a := by
  induction l1 with
  | nil => exact absurd h (List.not_mem_nil a)
  | cons b l1 ih =>
    by_cases hba : b = a
    · subst hba
      simp [List.indexOf_cons_self]
    · have hmem : a ∈ l1 := by
        rcases List.mem_cons.mp h with h1 | h1
        · exact absurd h1.symm hba
        · exact h1
      have hb : (b == a) = false := beq_false_of_ne hba
      simp [List.indexOf_cons, hb, ih hmem]

theorem indexOf_append_self {l : List Nat} {a : Nat} (h : a ∉ l) :
    (l ++ [a]).indexOf a = l.length := by
  induction l with
  | nil => simp [List.indexOf_cons_self]
  | cons b l ih =>
    have hba : b ≠ a := by
      intro hc
      exact h (hc ▸ List.mem_cons_self b l)
    have hb : (b == a) = false := beq_false_of_ne hba
    have hmem : a ∉ l := fun hc => h (List.mem_cons_of_mem b hc)
    simp [List.indexOf_cons, hb, ih hmem]

/-- The one-edge step relation of a graph given by its edge list. -/
def EStep (E : List Edge) (a b : Nat) : Prop :=
  ∃ e, e ∈ E ∧ e.n1 = a ∧ e.n2 = b

/-- A graph is acyclic when no nonempty edge path returns to its start. -/
def Acyclic (E : List Edge) : Prop :=
  ∀ n, ¬ Relation.TransGen (EStep E) n n

/-- Well-formedness of the node/edge collections that `Graph.finalize`
passes to `topo_sort`: registered nodes are distinct (`Graph.add` skips
nodes already present), edges are pairwise distinct objects (distinct
`(n1, output_name)` pairs are enforced by `Node.connect`), and every edge
connects registered nodes. -/
structure KahnCtx (nodes : List Nat) (E : List Edge) : Prop where
  nodes_nodup : nodes.Nodup
  edges_nodup : E.Nodup
  closed : ∀ e ∈ E, e.n1 ∈ nodes ∧ e.n2 ∈ nodes

/-- Loop invariant of the Kahn sort: `out` are popped nodes in pop order,
`queue` the ready nodes, `rem` the un-drained edges. -/
structure KahnInv (nodes : List Nat) (E : List Edge)
    (queue : List Nat) (rem : List Edge) (out : List Nat) : Prop where
  out_nodup : out.Nodup
  queue_nodup : queue.Nodup
  disj : ∀ n, n ∈ out → n ∈ queue → False
  out_sub : ∀ n ∈ out, n ∈ nodes
  queue_sub : ∀ n ∈ queue, n ∈ nodes
  rem_sub : List.Sublist rem E
  drained : ∀ e ∈ E, e ∉ rem ↔ e.n1 ∈ out
  queue_ready : ∀ n ∈ queue, ∀ e ∈ E, e.n2 = n → e ∉ rem
  out_ready : ∀ n ∈ out, ∀ e ∈ E, e.n2 = n → e ∉ rem
  pending : ∀ n ∈ nodes, n ∉ out → n ∉ queue → ∃ e, e ∈ E ∧ e.n2 = n ∧ e ∈ rem
  ordered : ∀ e ∈ E, e.n2 ∈ out →
    e.n1 ∈ out ∧ out.indexOf e.n1 < out.indexOf e.n2

theorem kahnInit {nodes : List Nat} {E : List Edge} (ctx : KahnCtx nodes E) :
    KahnInv nodes E (initSources nodes E) E [] := by
  refine ⟨List.nodup_nil, ctx.nodes_nodup.filter _, ?_, ?_, ?_, List.Sublist.refl E,
      ?_, ?_, ?_, ?_, ?_⟩
  · intro n hn _
    exact absurd hn (List.not_mem_nil n)
  · intro n hn
    exact absurd hn (List.not_mem_nil n)
  · intro n hn
    exact (List.mem_filter.mp hn).1
  · intro e he
    simp only [List.not_mem_nil, iff_false, not_not]
    exact he
  · intro n hn e he hn2
    have hempty := (List.mem_filter.mp hn).2
    have : e ∈ ein E n := mem_ein.mpr ⟨he, hn2⟩
    rw [List.isEmpty_iff.mp hempty] at this
    exact absurd this (List.not_mem_nil e)
  · intro n hn
    exact absurd hn (List.not_mem_nil n)
  · intro n hn _ hnq
    have hne : ¬ (ein E n).isEmpty := by
      intro hc
      exact hnq (List.mem_filter.mpr ⟨hn, by simpa using hc⟩)
    have : ein E n ≠ [] := by
      intro hc
      exact hne (by rw [hc]; rfl)
    obtain ⟨e, he⟩ := List.exists_mem_of_ne_nil _ this
    exact ⟨e, (mem_ein.mp he).1, (mem_ein.mp he).2, (mem_ein.mp he).1⟩
  · intro e _ hmem
    exact absurd hmem (List.not_mem_nil _)

theorem kahnStep {nodes : List Nat} {E : List Edge} {n : Nat} {q : List Nat}
    {rem : List Edge} {out : List Nat}
    (ctx : KahnCtx nodes E) (inv : KahnInv nodes E (n :: q) rem out) :
    KahnInv nodes E (drain (eout E n) q rem).1 (drain (eout E n) q rem).2
      (out ++ [n]) := by
  have hnq : n ∈ n :: q := List.mem_cons_self n q
  have hn_not_out : n ∉ out := fun hc => inv.disj n hc hnq
  have hrem_nodup : rem.Nodup := inv.rem_sub.nodup ctx.edges_nodup
  have hes_nodup : (eout E n).Nodup := ctx.edges_nodup.filter _
  have hes_sub : ∀ e ∈ eout E n, e ∈ rem := by
    intro e he
    obtain ⟨heE, hn1⟩ := mem_eout.mp he
    by_contra hc
    exact hn_not_out (hn1 ▸ (inv.drained e heE).mp hc)
  have hrem_mem := @drain_rem_mem (eout E n) q rem hrem_nodup hes_nodup hes_sub
  have hrem_char : ∀ x ∈ E, (x ∈ (drain (eout E n) q rem).2 ↔ x ∈ rem ∧ x.n1 ≠ n) := by
    intro x hx
    rw [hrem_mem x]
    constructor
    · rintro ⟨h1, h2⟩
      exact ⟨h1, fun hc => h2 (mem_eout.mpr ⟨hx, hc⟩)⟩
    · rintro ⟨h1, h2⟩
      exact ⟨h1, fun hc => h2 (mem_eout.mp hc).2⟩
  have hq_nodup : q.Nodup := (List.nodup_cons.mp inv.queue_nodup).2
  have hn_notin_q : n ∉ q := (List.nodup_cons.mp inv.queue_nodup).1
  have hready : ∀ m ∈ q, ∀ e ∈ rem, e.n2 ≠ m := by
    intro m hm e he hn2
    exact inv.queue_ready m (List.mem_cons_of_mem n hm) e (inv.rem_sub.mem he) hn2 he
  have hgood := @drain_queue_good (eout E n) q rem hq_nodup hready
  have hrem_sub2 : List.Sublist (drain (eout E n) q rem).2 E :=
    (drain_rem_sublist _ _ _).trans inv.rem_sub
  have hout_nodup : (out ++ [n]).Nodup := by
    simp [List.nodup_append, inv.out_nodup, hn_not_out]
  refine ⟨hout_nodup, hgood.1, ?_, ?_, ?_, hrem_sub2, ?_, ?_, ?_, ?_, ?_⟩
  · -- disj
    intro m hmo hmq
    rcases drain_queue_new hmq with hq1 | ⟨e, he, hn2⟩
    · rcases List.mem_append.mp hmo with h1 | h1
      · exact inv.disj m h1 (List.mem_cons_of_mem n hq1)
      · exact hn_notin_q ((List.mem_singleton.mp h1) ▸ hq1)
    · have herem : e ∈ rem := hes_sub e he
      have heE : e ∈ E := inv.rem_sub.mem herem
      rcases List.mem_append.mp hmo with h1 | h1
      · exact inv.out_ready m h1 e heE hn2 herem
      · exact inv.queue_ready n hnq e heE ((List.mem_singleton.mp h1) ▸ hn2) herem
  · -- out_sub
    intro m hm
    rcases List.mem_append.mp hm with h1 | h1
    · exact inv.out_sub m h1
    · exact (List.mem_singleton.mp h1) ▸ inv.queue_sub n hnq
  · -- queue_sub
    intro m hm
    rcases drain_queue_new hm with h1 | ⟨e, he, hn2⟩
    · exact inv.queue_sub m (List.mem_cons_of_mem n h1)
    · exact hn2 ▸ (ctx.closed e (mem_eout.mp he).1).2
  · -- drained
    intro e he
    rw [show (e ∉ (drain (eout E n) q rem).2 ↔ ¬(e ∈ rem ∧ e.n1 ≠ n)) from
      not_congr (hrem_char e he)]
    rw [not_and_or, not_not]
    constructor
    · rintro (h1 | h1)
      · exact List.mem_append.mpr (Or.inl ((inv.drained e he).mp h1))
      · exact List.mem_append.mpr (Or.inr (List.mem_singleton.mpr h1))
    · intro h1
      rcases List.mem_append.mp h1 with h2 | h2
      · exact Or.inl ((inv.drained e he).mpr h2)
      · exact Or.inr (List.mem_singleton.mp h2)
  · -- queue_ready
    intro m hm e he hn2 hcontra
    exact hgood.2 m hm e hcontra hn2
  · -- out_ready
    intro m hm e he hn2 hcontra
    have herem : e ∈ rem := ((hrem_char e he).mp hcontra).1
    rcases List.mem_append.mp hm with h1 | h1
    · exact inv.out_ready m h1 e he hn2 herem
    · exact inv.queue_ready n hnq e he ((List.mem_singleton.mp h1) ▸ hn2) herem
  · -- pending
    intro m hmn hmo hmq
    have hm_not_out : m ∉ out := fun hc => hmo (List.mem_append.mpr (Or.inl hc))
    have hm_ne_n : m ≠ n := fun hc =>
      hmo (List.mem_append.mpr (Or.inr (List.mem_singleton.mpr hc)))
    have hm_not_q : m ∉ q := fun hc => hmq (drain_queue_mono hc)
    have hm_not_queue : m ∉ n :: q := by
      intro hc
      rcases List.mem_cons.mp hc with h1 | h1
      · exact hm_ne_n h1
      · exact hm_not_q h1
    obtain ⟨e, heE, hn2, herem⟩ := inv.pending m hmn hm_not_out hm_not_queue
    rcases @drain_pending (eout E n) q rem m ⟨e, herem, hn2⟩ with
        ⟨e2, he2, hn22⟩ | h1
    · exact ⟨e2, hrem_sub2.mem he2, hn22, he2⟩
    · exact absurd h1 hmq
  · -- ordered
    intro e he hn2
    rcases List.mem_append.mp hn2 with h1 | h1
    · obtain ⟨ho1, ho2⟩ := inv.ordered e he h1
      refine ⟨List.mem_append.mpr (Or.inl ho1), ?_⟩
      rw [indexOf_append_of_mem ho1, indexOf_append_of_mem h1]
      exact ho2
    · have hn2n : e.n2 = n := List.mem_singleton.mp h1
      have herem : e ∉ rem := inv.queue_ready n hnq e he hn2n
      have hn1 : e.n1 ∈ out := (inv.drained e he).mp herem
      refine ⟨List.mem_append.mpr (Or.inl hn1), ?_⟩
      rw [indexOf_append_of_mem hn1, hn2n, indexOf_append_self hn_not_out]
      exact List.indexOf_lt_length.mpr hn1

theorem topoLoop_inv {nodes : List Nat} {E : List Edge} (ctx : KahnCtx nodes E) :
    ∀ fuel queue rem out, KahnInv nodes E queue rem out →
      queue.length + rem.length ≤ fuel →
      KahnInv nodes E [] (topoLoop E fuel queue rem out).2
        (topoLoop E fuel queue rem out).1 := by
  intro fuel
  induction fuel with
  | zero =>
    intro queue rem out inv hlen
    have hq : queue = [] := List.length_eq_zero.mp (by omega)
    subst hq
    exact inv
  | succ fuel ih =>
    intro queue rem out inv hlen
    match queue with
    | [] => exact inv
    | n :: q =>
      have hstep := kahnStep ctx inv
      have hdl := drain_length (eout E n) q rem
      simp only [List.length_cons] at hlen
      exact ih _ _ _ hstep (by omega)

theorem topo_sort_ok {nodes : List Nat} {E : List Edge} {out : List Nat}
    (ctx : KahnCtx nodes E) (h : topo_sort nodes E = .ok out) :
    out.Nodup ∧ (∀ n, n ∈ out ↔ n ∈ nodes) ∧
      ∀ e ∈ E, e.n1 ∈ out ∧ e.n2 ∈ out ∧ out.indexOf e.n1 < out.indexOf e.n2 := by
  have hinit := kahnInit ctx
  have hfin := topoLoop_inv ctx ((initSources nodes E).length + E.length)
    (initSources nodes E) E [] hinit (le_refl _)
  unfold topo_sort at h
  set s := topoLoop E ((initSources nodes E).length + E.length)
    (initSources nodes E) E [] with hs
  by_cases hemp : s.2.isEmpty
  · rw [if_pos hemp] at h
    have hout : s.1 = out := by
      injection h
    have hrem : s.2 = [] := List.isEmpty_iff.mp hemp
    rw [hout, hrem] at hfin
    have hall : ∀ n ∈ nodes, n ∈ out := by
      intro n hn
      by_contra hc
      obtain ⟨e, _, _, hmem⟩ := hfin.pending n hn hc (List.not_mem_nil n)
      exact absurd hmem (List.not_mem_nil e)
    refine ⟨hfin.out_nodup, fun n => ⟨fun hn => hfin.out_sub n hn, fun hn => hall n hn⟩, ?_⟩
    intro e he
    have hn2 : e.n2 ∈ out := hall e.n2 (ctx.closed e he).2
    obtain ⟨h1, h2⟩ := hfin.ordered e he hn2
    exact ⟨h1, hn2, h2⟩
  · rw [if_neg hemp] at h
    exact absurd h (by intro hc; injection hc)

/-- Backward chain of not-yet-drained edges: each step picks an edge whose
sink is the previous edge's source. -/
def predChain (rem : List Edge) : Nat → Option Edge
  | 0 => rem.head?
  | k + 1 => (predChain rem k).bind (fun e => rem.find? (fun e2 => e2.n2 == e.n1))

theorem predChain_some {rem : List Edge} (hne : rem ≠ [])
    (P : ∀ e ∈ rem, ∃ e2, e2 ∈ rem ∧ e2.n2 = e.n1) :
    ∀ k, ∃ e, predChain rem k = some e ∧ e ∈ rem := by
  intro k
  induction k with
  | zero =>
    match rem, hne with
    | e :: rest, _ => exact ⟨e, rfl, List.mem_cons_self e rest⟩
  | succ k ih =>
    obtain ⟨e, hek, hmem⟩ := ih
    obtain ⟨e2, he2, hn2⟩ := P e hmem
    have : ∃ e3, rem.find? (fun x => x.n2 == e.n1) = some e3 := by
      have : (rem.find? (fun x => x.n2 == e.n1)).isSome := by
        rw [List.find?_isSome]
        exact ⟨e2, he2, by simp [hn2]⟩
      exact Option.isSome_iff_exists.mp this
    obtain ⟨e3, he3⟩ := this
    refine ⟨e3, ?_, List.mem_of_find?_eq_some he3⟩
    simp [predChain, hek, he3]

theorem cycle_of_pred_closed {E rem : List Edge} (hsub : ∀ e ∈ rem, e ∈ E)
    (hne : rem ≠ []) (P : ∀ e ∈ rem, ∃ e2, e2 ∈ rem ∧ e2.n2 = e.n1) :
    ∃ n, Relation.TransGen (EStep E) n n := by
  classical
  set nval : Nat → Nat := fun k => ((predChain rem k).map Edge.n1).getD 0 with hnval
  have hstep : ∀ k, Relation.TransGen (EStep E) (nval (k + 1)) (nval k) := by
    intro k
    obtain ⟨e, hek, hmem⟩ := predChain_some hne P k
    obtain ⟨e3, he3⟩ : ∃ e3, rem.find? (fun x => x.n2 == e.n1) = some e3 := by
      obtain ⟨e2, he2, hn2⟩ := P e hmem
      have : (rem.find? (fun x => x.n2 == e.n1)).isSome := by
        rw [List.find?_isSome]
        exact ⟨e2, he2, by simp [hn2]⟩
      exact Option.isSome_iff_exists.mp this
    have hk1 : predChain rem (k + 1) = some e3 := by
      simp [predChain, hek, he3]
    have he3n2 : e3.n2 = e.n1 := by
      have := List.find?_some he3
      simpa using this
    have he3E : e3 ∈ E := hsub e3 (List.mem_of_find?_eq_some he3)
    refine Relation.TransGen.single ?_
    refine ⟨e3, he3E, ?_, ?_⟩
    · simp [hnval, hk1]
    · simp [hnval, hek, he3n2]
  have hchain : ∀ d k, Relation.TransGen (EStep E) (nval (k + d + 1)) (nval k) := by
    intro d
    induction d with
    | zero => intro k; exact hstep k
    | succ d ih =>
      intro k
      have h1 : Relation.TransGen (EStep E) (nval (k + d + 2)) (nval (k + d + 1)) :=
        hstep (k + d + 1)
      exact h1.trans (ih k)
  have hmaps : ∀ i : Fin (rem.length + 1), nval i ∈ (rem.map Edge.n1).toFinset := by
    intro i
    obtain ⟨e, hek, hmem⟩ := predChain_some hne P i
    rw [List.mem_toFinset, List.mem_map]
    refine ⟨e, hmem, ?_⟩
    simp [hnval, hek]
  have hcard : (rem.map Edge.n1).toFinset.card < (Finset.univ : Finset (Fin (rem.length + 1))).card := by
    have h1 : (rem.map Edge.n1).toFinset.card ≤ (rem.map Edge.n1).length :=
      List.toFinset_card_le _
    simp only [Finset.card_univ, Fintype.card_fin, List.length_map] at *
    omega
  obtain ⟨i, _, j, _, hij, heq⟩ :=
    Finset.exists_ne_map_eq_of_card_lt_of_maps_to hcard (fun i _ => hmaps i)
  rcases Nat.lt_or_ge (i : Nat) (j : Nat) with hlt | hge
  · refine ⟨nval i, ?_⟩
    have : Relation.TransGen (EStep E) (nval ((i : Nat) + ((j : Nat) - (i : Nat) - 1) + 1)) (nval i) :=
      hchain _ _
    rw [show (i : Nat) + ((j : Nat) - (i : Nat) - 1) + 1 = (j : Nat) by omega] at this
    rw [← heq] at this
    exact this
  · have hlt2 : (j : Nat) < (i : Nat) := by
      rcases Nat.lt_or_ge (j : Nat) (i : Nat) with h1 | h1
      · exact h1
      · exact absurd (Fin.ext (by omega)) hij
    refine ⟨nval j, ?_⟩
    have : Relation.TransGen (EStep E) (nval ((j : Nat) + ((i : Nat) - (j : Nat) - 1) + 1)) (nval j) :=
      hchain _ _
    rw [show (j : Nat) + ((i : Nat) - (j : Nat) - 1) + 1 = (i : Nat) by omega] at this
    rw [heq] at this
    exact this

theorem topo_sort_acyclic_ok {nodes : List Nat} {E : List Edge}
    (ctx : KahnCtx nodes E) (hacyc : Acyclic E) :
    ∃ out, topo_sort nodes E = .ok out := by
  have hinit := kahnInit ctx
  have hfin := topoLoop_inv ctx ((initSources nodes E).length + E.length)
    (initSources nodes E) E [] hinit (le_refl _)
  unfold topo_sort
  set s := topoLoop E ((initSources nodes E).length + E.length)
    (initSources nodes E) E [] with hs
  have hrem : s.2 = [] := by
    by_contra hne
    have hsub : ∀ e ∈ s.2, e ∈ E := fun e he => hfin.rem_sub.mem he
    have P : ∀ e ∈ s.2, ∃ e2, e2 ∈ s.2 ∧ e2.n2 = e.n1 := by
      intro e he
      have heE : e ∈ E := hsub e he
      have hn1_not_out : e.n1 ∉ s.1 := by
        intro hc
        exact ((hfin.drained e heE).mpr hc) he
      have hn1_nodes : e.n1 ∈ nodes := (ctx.closed e heE).1
      obtain ⟨e2, he2E, hn22, hmem⟩ :=
        hfin.pending e.n1 hn1_nodes hn1_not_out (List.not_mem_nil _)
      exact ⟨e2, hmem, hn22⟩
    obtain ⟨n, hcyc⟩ := cycle_of_pred_closed hsub hne P
    exact hacyc n hcyc
  rw [hrem]
  exact ⟨s.1, rfl⟩

theorem topo_sort_cycle_error {nodes : List Nat} {E : List Edge}
    (ctx : KahnCtx nodes E) (hcyc : ∃ n, Relation.TransGen (EStep E) n n) :
    topo_sort nodes E = .error "Graph has at least one cycle!" := by
  obtain ⟨n, hn⟩ := hcyc
  cases h : topo_sort nodes E with
  | ok out =>
    obtain ⟨_, _, hord⟩ := topo_sort_ok ctx h
    have hmono : ∀ a b, Relation.TransGen (EStep E) a b →
        out.indexOf a < out.indexOf b := by
      intro a b hab
      induction hab with
      | single hstep =>
        obtain ⟨e, heE, h1, h2⟩ := hstep
        have := (hord e heE).2.2
        rw [h1, h2] at this
        exact this
      | tail hab hstep ih =>
        obtain ⟨e, heE, h1, h2⟩ := hstep
        have := (hord e heE).2.2
        rw [h1, h2] at this
        omega
    exact absurd (hmono n n hn) (lt_irrefl _)
  | error msg =>
    unfold topo_sort at h
    split at h
    · exact absurd h (by intro hc; injection hc)
    · injection h with hmsg
      rw [← hmsg]

/-- Capability descriptor of a node: the data `inspect.getargspec` exposes
about its `process` method (`self` excluded) together with the class-level
`outputs` declaration.  A Python string-valued `outputs` (such as
`('default')`, which is the plain string) contributes the single name. -/
structure NodeSpec where
  args : List String
  numDefaults : Nat
  varargs : Bool
  keywords : Bool
  outputs : List String
deriving DecidableEq, Repr

/-- Node.accepts_input (nodes/base.py 248-252). -/
def NodeSpec.accepts_input (s : NodeSpec) : Bool :=
  s.varargs || s.keywords || !s.args.isEmpty

/-- FxnArgs (nodes/base.py 44-77): counts of positional and names of
keyword inputs assembled from the inbound edges. -/
structure FxnArgs where
  args : Nat
  kwargs : List String
deriving DecidableEq, Repr

/-- FxnArgs.from_edges (nodes/base.py 64-77): duplicate keyword input names
raise a ValidationError. -/
def FxnArgs.from_edges_aux (acc : FxnArgs) : List Edge → Except String FxnArgs
  | [] => .ok acc
  | e :: rest =>
    match e.input_name with
    | none => FxnArgs.from_edges_aux ⟨acc.args + 1, acc.kwargs⟩ rest
    | some s =>
      if s ∈ acc.kwargs then .error "Duplicate edge input!"
      else FxnArgs.from_edges_aux ⟨acc.args, acc.kwargs ++ [s]⟩ rest

def FxnArgs.from_edges (edges : List Edge) : Except String FxnArgs :=
  FxnArgs.from_edges_aux ⟨0, []⟩ edges

/-- FxnArgs.test (nodes/base.py 79-115): check the assembled inputs against
the node signature. -/
def FxnArgs.test (fa : FxnArgs) (s : NodeSpec) (require_inputs : Bool) :
    Except String Unit :=
  if "*" ∈ fa.kwargs then .ok ()
  else if fa.args > s.args.length - s.numDefaults ∧ ¬s.varargs ∧
      (s.numDefaults = 0 ∨ fa.args - (s.args.length - s.numDefaults) > 1 ∨
        fa.args > 1) then
    .error "Too many unnamed edge inputs"
  else if require_inputs ∧ fa.args < s.args.length - s.numDefaults then
    .error "requires more edge inputs"
  else if ¬s.keywords ∧ ¬(fa.kwargs.filter (fun k => k ∉ s.args)).isEmpty then
    .error "Unknown input edge"
  else .ok ()

/-- The output-edge loop of Node.validate (nodes/base.py 284-295). -/
def checkOutputs (outputs : List String) : List String → List Edge →
    Except String (List String)
  | used, [] => .ok used
  | used, e :: rest =>
    if e.output_name ∈ used then .error "duplicate output edge"
    else if "*" ∉ outputs ∧ e.output_name ≠ "*" ∧ e.output_name ∉ outputs then
      .error "has no output edge"
    else checkOutputs outputs (used ++ [e.output_name]) rest

/-- Node.validate (nodes/base.py 259-298).  Edges here always carry both
endpoints, so the dangling-edge checks of `edge.validate()` pass. -/
def validateNode (edges : List Edge) (n : Nat) (s : NodeSpec)
    (require_inputs : Bool) : Except String Unit := do
  let fa ← FxnArgs.from_edges (ein edges n)
  fa.test s require_inputs
  let used ← checkOutputs s.outputs [] (eout edges n)
  if "*" ∈ used ∧ used.length > 1 then
    throw "star output edge is used; no other output edges allowed"
  else
    pure ()

/-- The source/sink inference loops of Graph.finalize (graph.py 270-289):
remember the first matching node, raise on a second one, and stay `none`
when no node matches. -/
def inferUnique (p : Nat → Bool) (msg : String) : List Nat → Option Nat →
    Except String (Option Nat)
  | [], acc => .ok acc
  | n :: rest, acc =>
    if p n then
      match acc with
      | none => inferUnique p msg rest (some n)
      | some _ => .error msg
    else inferUnique p msg rest acc

/-- A node qualifies as inferable source (graph.py 271): it accepts input
and has no inbound edges. -/
def isSourceNode (specs : Nat → NodeSpec) (edges : List Edge) (n : Nat) : Bool :=
  (specs n).accepts_input && (ein edges n).isEmpty

/-- A node qualifies as inferable sink (graph.py 284): it declares outputs
and has no outbound edges. -/
def isSinkNode (specs : Nat → NodeSpec) (edges : List Edge) (n : Nat) : Bool :=
  !(specs n).outputs.isEmpty && (eout edges n).isEmpty

/-- Graph (graph.py 138-176): the registered nodes and edges, the inferred
source and sink and the finalized flag. -/
structure GraphS where
  nodes : List Nat
  edges : List Edge
  source : Option Nat := none
  sink : Option Nat := none
  finalized : Bool := false
deriving DecidableEq, Repr

/-- The per-node validation loop of Graph.validate (graph.py 298-301):
`require_inputs` is dropped exactly for the source node. -/
def validateAll (edges : List Edge) (specs : Nat → NodeSpec) (src : Option Nat) :
    List Nat → Except String Unit
  | [] => .ok ()
  | n :: rest =>
    match validateNode edges n (specs n) (src != some n) with
    | .error msg => .error msg
    | .ok _ => validateAll edges specs src rest

/-- Graph.finalize (graph.py 260-296) along the implicit-construction path:
a graph built inside a `with Graph(...)` block has edgeless NoopNode
source/sink placeholders, so finalize takes the inference branch for both.
Node capability descriptors are supplied by `specs`. -/
def finalize (g : GraphS) (specs : Nat → NodeSpec) : Except String GraphS := do
  let src ← inferUnique (isSourceNode specs g.edges) "Ambiguous source node!"
    g.nodes none
  let snk ← inferUnique (isSinkNode specs g.edges) "Ambiguous sink node!"
    g.nodes none
  validateAll g.edges specs src g.nodes
  match topo_sort g.nodes g.edges with
  | .error _ => throw "Graph has at least one cycle!"
  | .ok sorted =>
    pure { nodes := sorted, edges := g.edges, source := src, sink := snk,
           finalized := true }

/-- Association-list lookup with Python dict semantics (first binding wins;
`dset` keeps bindings unique). -/
def dget {κ β : Type} [DecidableEq κ] : List (κ × β) → κ → Option β
  | [], _ => none
  | (k, v) :: rest, k2 => if k = k2 then some v else dget rest k2

/-- Association-list store with Python dict semantics: overwrite in place,
append when new. -/
def dset {κ β : Type} [DecidableEq κ] : List (κ × β) → κ → β → List (κ × β)
  | [], k, v => [(k, v)]
  | (k1, v1) :: rest, k, v =>
    if k1 = k then (k, v) :: rest else (k1, v1) :: dset rest k v

theorem dget_dset_self {κ β : Type} [DecidableEq κ] (m : List (κ × β)) (k : κ)
    (v : β) : dget (dset m k v) k = some v := by
  induction m with
  | nil => simp [dget, dset]
  | cons kv rest ih =>
    by_cases h : kv.1 = k
    · simp [dset, dget, h]
    · simp [dset, dget, h, ih]

theorem dget_dset_ne {κ β : Type} [DecidableEq κ] (m : List (κ × β)) {k k2 : κ}
    (v : β) (h : k ≠ k2) : dget (dset m k v) k2 = dget m k2 := by
  induction m with
  | nil => simp [dget, dset, h]
  | cons kv rest ih =>
    by_cases h1 : kv.1 = k
    · simp [dset, dget, h1, h]
    · have h3 : k2 ≠ k := Ne.symm h
      by_cases h2 : kv.1 = k2
      · simp [dset, dget, h1, h2, h3]
      · simp [dset, dget, h1, h2, ih]

/-- Exceptions a node process can raise: the StopProcessing control signal
(exceptions.py 10-13) or an ordinary error. -/
inductive PErr where
  | stop
  | err (msg : String)
deriving DecidableEq, Repr

/-- Errors escaping a graph run: StopProcessing, an exception annotated with
the raising node by run_node, or an error raised by the run loop itself. -/
inductive RunErr where
  | stop
  | nodeError (node : Nat) (msg : String)
  | fatal (msg : String)
deriving DecidableEq, Repr

/-- A process return value before normalization: a bare value or a dict. -/
inductive PRet (V : Type) where
  | bare (v : V)
  | dict (kvs : List (String × V))

/-- The normalization of run_node (nodes/base.py 39-40): a non-dict return
value becomes the `default` output. -/
def normalizeRet {V : Type} : PRet V → List (String × V)
  | .bare v => [("default", v)]
  | .dict kvs => kvs

/-- run_node (nodes/base.py 15-41): invoke the process, annotate an escaping
exception with the raising node, normalize the return value.  StopProcessing
also receives the node attribute in Python, but callers catch it by type, so
it is preserved as the stop signal. -/
def run_node {V : Type} (proc : Nat → List V → List (String × V) → Except PErr (PRet V))
    (n : Nat) (args : List V) (kwargs : List (String × V)) :
    Except RunErr (List (String × V)) :=
  match proc n args kwargs with
  | .error .stop => .error .stop
  | .error (.err m) => .error (.nodeError n m)
  | .ok ret => .ok (normalizeRet ret)

/-- ret_to_args (graph.py 76-85): split a return dict into the positional
value (the `default` key) and the keyword map. -/
def ret_to_args {V : Type} (ret : List (String × V)) :
    Option V × List (String × V) :=
  ret.foldl (fun acc kv =>
    if kv.1 = "default" then (some kv.2, acc.2) else (acc.1, dset acc.2 kv.1 kv.2))
    (none, [])

/-- A node input buffer: the caller-seeded positional tuple of the source
node, or the by-producer map filled by edge routing (graph.py 313-330). -/
inductive BufArgs (V : Type) where
  | direct (vs : List V)
  | byNode (m : List (Nat × V))

/-- The `inputs` map of Graph.run, keyed like the Python dict by the node
(`none` is the seed entry of a graph without source). -/
def Buffers (V : Type) := List (Option Nat × (BufArgs V × List (String × V)))

/-- Python dict.update on a keyword map. -/
def kwUpdate {V : Type} (kw upd : List (String × V)) : List (String × V) :=
  upd.foldl (fun acc kv => dset acc kv.1 kv.2) kw

/-- The positional-argument assembly of Graph.run (graph.py 322-328):
dict-buffered positional inputs are ordered by inbound-edge declaration
order; the seeded tuple is used as-is. -/
def buildArgs {V : Type} (eins : List Edge) : BufArgs V → List V
  | .direct vs => vs
  | .byNode m => eins.filterMap (fun e =>
      if e.input_name = none ∨ e.input_name = some "*" then dget m e.n1 else none)

/-- Routing of one outbound edge (graph.py 334-350), including the
`setdefault` insertion of a fresh buffer for the sink.  Assigning into a
seeded tuple buffer or a missing output key is a fatal error, as in
Python (TypeError and KeyError); `BAD_EDGE` combinations are fatal. -/
def routeEdge {V : Type} (n : Nat) (ret : List (String × V)) (inputs : Buffers V)
    (e : Edge) : Except RunErr (Buffers V) :=
  let buf := (dget inputs (some e.n2)).getD (BufArgs.byNode [], [])
  if e.output_name = "*" then
    if e.input_name = some "*" then
      match buf.1, (ret_to_args ret).1 with
      | .direct _, some _ => .error (.fatal "tuple does not support item assignment")
      | .direct vs, none =>
        .ok (dset inputs (some e.n2) (.direct vs, kwUpdate buf.2 (ret_to_args ret).2))
      | .byNode m, some a =>
        .ok (dset inputs (some e.n2)
          (.byNode (dset m n a), kwUpdate buf.2 (ret_to_args ret).2))
      | .byNode m, none =>
        .ok (dset inputs (some e.n2) (.byNode m, kwUpdate buf.2 (ret_to_args ret).2))
    else .error (.fatal "Bad graph edge!")
  else if e.input_name = none then
    match dget ret e.output_name with
    | some v =>
      match buf.1 with
      | .direct _ => .error (.fatal "tuple does not support item assignment")
      | .byNode m => .ok (dset inputs (some e.n2) (.byNode (dset m n v), buf.2))
    | none => .ok (dset inputs (some e.n2) buf)
  else if e.input_name = some "*" then .error (.fatal "Bad graph edge!")
  else
    match e.input_name, dget ret e.output_name with
    | some iname, some v => .ok (dset inputs (some e.n2) (buf.1, dset buf.2 iname v))
    | some _, none => .error (.fatal "KeyError")
    | none, _ => .error (.fatal "unreachable")

/-- Route all outbound edges of a node in declaration order. -/
def routeAll {V : Type} (n : Nat) (ret : List (String × V)) :
    List Edge → Buffers V → Except RunErr (Buffers V)
  | [], inputs => .ok inputs
  | e :: rest, inputs =>
    match routeEdge n ret inputs e with
    | .error err => .error err
    | .ok inputs2 => routeAll n ret rest inputs2

/-- The node loop of Graph.run (graph.py 319-351).  The first component
lists the nodes whose process was invoked, in invocation order. -/
def runLoop {V : Type} (proc : Nat → List V → List (String × V) → Except PErr (PRet V))
    (edges : List Edge) (sink : Option Nat) :
    List Nat → Buffers V → Option (List (String × V)) → List Nat →
    List Nat × Except RunErr (Option (List (String × V)))
  | [], _, sinkRet, trace => (trace, .ok sinkRet)
  | n :: rest, inputs, sinkRet, trace =>
    let buf := (dget inputs (some n)).getD (BufArgs.direct [], [])
    match run_node proc n (buildArgs (ein edges n) buf.1) buf.2 with
    | .error err => (trace ++ [n], .error err)
    | .ok ret =>
      match routeAll n ret (eout edges n) inputs with
      | .error err => (trace ++ [n], .error err)
      | .ok inputs2 =>
        runLoop proc edges sink rest inputs2
          (if sink = some n then some ret else sinkRet) (trace ++ [n])

/-- Graph.run (graph.py 303-351): refuse to run before finalize, refuse
inputs when there is no source, then seed the source buffer and execute in
stored (topological) order. -/
def graphRun {V : Type} (g : GraphS)
    (proc : Nat → List V → List (String × V) → Except PErr (PRet V))
    (args : List V) (kwargs : List (String × V)) :
    List Nat × Except RunErr (Option (List (String × V))) :=
  if ¬g.finalized then
    ([], .error (.fatal "Must call finalize() before running"))
  else if (¬args.isEmpty ∨ ¬kwargs.isEmpty) ∧ g.source = none then
    ([], .error (.fatal "This graph takes no inputs"))
  else
    runLoop proc g.edges g.sink g.nodes [(g.source, (.direct args, kwargs))] none []

/-- Graph.__enter__ (graph.py 163-171): re-entering the context clears the
finalized flag.  The NoopNode placeholder allocation only touches a missing
source or sink and plays no role in the modelled inference path. -/
def graphEnter (g : GraphS) : GraphS :=
  { g with finalized := false }

theorem runLoop_cons_err {V : Type}
    {proc : Nat → List V → List (String × V) → Except PErr (PRet V)}
    {edges : List Edge} {sink : Option Nat} {n : Nat} {rest : List Nat}
    {inputs : Buffers V} {sr : Option (List (String × V))} {tr : List Nat}
    {err : RunErr}
    (h : run_node proc n
      (buildArgs (ein edges n) ((dget inputs (some n)).getD (BufArgs.direct [], [])).1)
      ((dget inputs (some n)).getD (BufArgs.direct [], [])).2 = .error err) :
    runLoop proc edges sink (n :: rest) inputs sr tr = (tr ++ [n], .error err) := by
  simp [runLoop, h]

theorem runLoop_cons_route_err {V : Type}
    {proc : Nat → List V → List (String × V) → Except PErr (PRet V)}
    {edges : List Edge} {sink : Option Nat} {n : Nat} {rest : List Nat}
    {inputs : Buffers V} {sr : Option (List (String × V))} {tr : List Nat}
    {ret : List (String × V)} {err : RunErr}
    (h : run_node proc n
      (buildArgs (ein edges n) ((dget inputs (some n)).getD (BufArgs.direct [], [])).1)
      ((dget inputs (some n)).getD (BufArgs.direct [], [])).2 = .ok ret)
    (h2 : routeAll n ret (eout edges n) inputs = .error err) :
    runLoop proc edges sink (n :: rest) inputs sr tr = (tr ++ [n], .error err) := by
  simp [runLoop, h, h2]

theorem runLoop_cons_ok {V : Type}
    {proc : Nat → List V → List (String × V) → Except PErr (PRet V)}
    {edges : List Edge} {sink : Option Nat} {n : Nat} {rest : List Nat}
    {inputs : Buffers V} {sr : Option (List (String × V))} {tr : List Nat}
    {ret : List (String × V)} {inputs2 : Buffers V}
    (h : run_node proc n
      (buildArgs (ein edges n) ((dget inputs (some n)).getD (BufArgs.direct [], [])).1)
      ((dget inputs (some n)).getD (BufArgs.direct [], [])).2 = .ok ret)
    (h2 : routeAll n ret (eout edges n) inputs = .ok inputs2) :
    runLoop proc edges sink (n :: rest) inputs sr tr =
      runLoop proc edges sink rest inputs2
        (if sink = some n then some ret else sr) (tr ++ [n]) := by
  simp [runLoop, h, h2]

theorem runLoop_ok_trace {V : Type}
    {proc : Nat → List V → List (String × V) → Except PErr (PRet V)}
    {edges : List Edge} {sink : Option Nat} :
    ∀ (ns : List Nat) (inputs : Buffers V) (sr : Option (List (String × V)))
      (tr : List Nat) (r : Option (List (String × V))),
      (runLoop proc edges sink ns inputs sr tr).2 = .ok r →
      (runLoop proc edges sink ns inputs sr tr).1 = tr ++ ns := by
  intro ns
  induction ns with
  | nil =>
    intro inputs sr tr r _
    simp [runLoop]
  | cons n rest ih =>
    intro inputs sr tr r h
    cases h1 : run_node proc n
        (buildArgs (ein edges n)
          ((dget inputs (some n)).getD (BufArgs.direct [], [])).1)
        ((dget inputs (some n)).getD (BufArgs.direct [], [])).2 with
    | error err =>
      rw [runLoop_cons_err h1] at h
      simp at h
    | ok ret =>
      cases h2 : routeAll n ret (eout edges n) inputs with
      | error err =>
        rw [runLoop_cons_route_err h1 h2] at h
        simp at h
      | ok inputs2 =>
        rw [runLoop_cons_ok h1 h2] at h ⊢
        rw [ih _ _ _ _ h]
        simp

theorem runLoop_trace_prefix {V : Type}
    {proc : Nat → List V → List (String × V) → Except PErr (PRet V)}
    {edges : List Edge} {sink : Option Nat} :
    ∀ (ns : List Nat) (inputs : Buffers V) (sr : Option (List (String × V)))
      (tr : List Nat),
      ∃ pre, List.IsPrefix pre ns ∧
        (runLoop proc edges sink ns inputs sr tr).1 = tr ++ pre := by
  intro ns
  induction ns with
  | nil =>
    intro inputs sr tr
    exact ⟨[], ⟨[], rfl⟩, by simp [runLoop]⟩
  | cons n rest ih =>
    intro inputs sr tr
    cases h1 : run_node proc n
        (buildArgs (ein edges n)
          ((dget inputs (some n)).getD (BufArgs.direct [], [])).1)
        ((dget inputs (some n)).getD (BufArgs.direct [], [])).2 with
    | error err =>
      exact ⟨[n], ⟨rest, rfl⟩, by rw [runLoop_cons_err h1]⟩
    | ok ret =>
      cases h2 : routeAll n ret (eout edges n) inputs with
      | error err =>
        exact ⟨[n], ⟨rest, rfl⟩, by rw [runLoop_cons_route_err h1 h2]⟩
      | ok inputs2 =>
        obtain ⟨pre, hpre, htr⟩ := ih inputs2
          (if sink = some n then some ret else sr) (tr ++ [n])
        obtain ⟨t, ht⟩ := hpre
        refine ⟨n :: pre, ⟨t, by rw [List.cons_append, ht]⟩, ?_⟩
        rw [runLoop_cons_ok h1 h2, htr, List.append_assoc]
        rfl

theorem inferUnique_filter_nil {p : Nat → Bool} {msg : String} :
    ∀ (l : List Nat) (acc : Option Nat), l.filter p = [] →
      inferUnique p msg l acc = .ok acc := by
  intro l
  induction l with
  | nil => intro acc _; rfl
  | cons n rest ih =>
    intro acc h
    rw [List.filter_cons] at h
    by_cases hp : p n
    · simp [hp] at h
    · simp only [hp, if_false, Bool.false_eq_true] at h
      simp only [inferUnique, hp, Bool.false_eq_true, if_false]
      exact ih acc h

theorem inferUnique_filter_singleton {p : Nat → Bool} {msg : String} {s : Nat} :
    ∀ l : List Nat, l.filter p = [s] → inferUnique p msg l none = .ok (some s) := by
  intro l
  induction l with
  | nil => intro h; simp at h
  | cons n rest ih =>
    intro h
    rw [List.filter_cons] at h
    by_cases hp : p n
    · simp only [hp, if_true] at h
      have hn : n = s := by
        injection h
      have hrest : rest.filter p = [] := by
        injection h with _ h2
      subst hn
      simp only [inferUnique, hp, if_true]
      exact inferUnique_filter_nil rest (some n) hrest
    · simp only [hp, Bool.false_eq_true, if_false] at h
      simp only [inferUnique, hp, Bool.false_eq_true, if_false]
      exact ih h

theorem topo_ok_index_mono {nodes : List Nat} {E : List Edge} {out : List Nat}
    (ctx : KahnCtx nodes E) (h : topo_sort nodes E = .ok out) :
    ∀ a b, Relation.TransGen (EStep E) a b → out.indexOf a < out.indexOf b := by
  obtain ⟨_, _, hord⟩ := topo_sort_ok ctx h
  intro a b hab
  induction hab with
  | single hstep =>
    obtain ⟨e, heE, h1, h2⟩ := hstep
    have := (hord e heE).2.2
    rw [h1, h2] at this
    exact this
  | tail hab hstep ih =>
    obtain ⟨e, heE, h1, h2⟩ := hstep
    have := (hord e heE).2.2
    rw [h1, h2] at this
    omega

theorem acyclic_of_topo_ok {nodes : List Nat} {E : List Edge} {out : List Nat}
    (ctx : KahnCtx nodes E) (h : topo_sort nodes E = .ok out) : Acyclic E := by
  intro n hn
  exact absurd (topo_ok_index_mono ctx h n n hn) (lt_irrefl _)

/-- C2: for any graph containing a cycle, finalize raises (the topological
sort cannot drain all edges — or an earlier finalize check already raised),
and no process runs: the embedded `finalize` takes no process functions at
all, and running the still-unfinalized graph raises before invoking any
process, which the empty trace and error of `graphRun` witness. -/
theorem pike_c2_cycle_finalize_error {V : Type} (g : GraphS)
    (specs : Nat → NodeSpec)
    (proc : Nat → List V → List (String × V) → Except PErr (PRet V))
    (args : List V) (kwargs : List (String × V))
    (ctx : KahnCtx g.nodes g.edges)
    (hcyc : ∃ n, Relation.TransGen (EStep g.edges) n n) :
    (∃ msg, finalize g specs = .error msg) ∧
      (g.finalized = false →
        (graphRun g proc args kwargs).1 = [] ∧
          ∃ err, (graphRun g proc args kwargs).2 = .error err) := by
  constructor
  · have htopo := topo_sort_cycle_error ctx hcyc
    cases h1 : inferUnique (isSourceNode specs g.edges) "Ambiguous source node!"
        g.nodes none with
    | error msg => exact ⟨msg, by simp [finalize, h1, Bind.bind, Except.bind]⟩
    | ok src =>
      cases h2 : inferUnique (isSinkNode specs g.edges) "Ambiguous sink node!"
          g.nodes none with
      | error msg => exact ⟨msg, by simp [finalize, h1, h2, Bind.bind, Except.bind]⟩
      | ok snk =>
        cases h3 : validateAll g.edges specs src g.nodes with
        | error msg =>
          exact ⟨msg, by simp [finalize, h1, h2, h3, Bind.bind, Except.bind]⟩
        | ok u =>
          refine ⟨"Graph has at least one cycle!", ?_⟩
          simp [finalize, h1, h2, h3, htopo, Bind.bind, Except.bind, throw,
            throwThe, MonadExceptOf.throw]
  · intro hnf
    simp [graphRun, hnf]

/-- C10: running a graph whose finalize has not been called, or one
re-opened by entering its context and not re-finalized, raises ValueError
and invokes no process (empty trace). -/
theorem pike_c10_run_unfinalized {V : Type} (g g2 : GraphS)
    (proc : Nat → List V → List (String × V) → Except PErr (PRet V))
    (args : List V) (kwargs : List (String × V))
    (h : g.finalized = false) :
    graphRun g proc args kwargs =
      ([], .error (.fatal "Must call finalize() before running")) ∧
    graphRun (graphEnter g2) proc args kwargs =
      ([], .error (.fatal "Must call finalize() before running")) := by
  constructor
  · simp [graphRun, h]
  · simp [graphRun, graphEnter]

/-- C1 (amended): for an acyclic well-formed graph with exactly one
inferable source and exactly one inferable sink whose per-node signature
validation passes, finalize succeeds, the finalized order is a permutation
of the registered nodes that puts every producer before its consumer, every
run — aborted or not — invokes a prefix of that order, so no node ever runs
twice and none before its producers, and a run that completes without
raising invokes exactly the finalized node sequence, hence every node
exactly once. -/
theorem pike_c1_dag_runs_once {V : Type} (g : GraphS) (specs : Nat → NodeSpec)
    (s t : Nat)
    (proc : Nat → List V → List (String × V) → Except PErr (PRet V))
    (args : List V) (kwargs : List (String × V))
    (ctx : KahnCtx g.nodes g.edges)
    (hacyc : Acyclic g.edges)
    (hsrc : g.nodes.filter (isSourceNode specs g.edges) = [s])
    (hsnk : g.nodes.filter (isSinkNode specs g.edges) = [t])
    (hval : validateAll g.edges specs (some s) g.nodes = .ok ()) :
    ∃ fg, finalize g specs = .ok fg ∧
      fg.nodes.Nodup ∧ (∀ n, n ∈ fg.nodes ↔ n ∈ g.nodes) ∧
      (∀ e ∈ g.edges, fg.nodes.indexOf e.n1 < fg.nodes.indexOf e.n2) ∧
      (∃ pre, List.IsPrefix pre fg.nodes ∧
        (graphRun fg proc args kwargs).1 = pre) ∧
      ∀ r, (graphRun fg proc args kwargs).2 = .ok r →
        (graphRun fg proc args kwargs).1 = fg.nodes := by
  obtain ⟨out, hout⟩ := topo_sort_acyclic_ok ctx hacyc
  have h1 : inferUnique (isSourceNode specs g.edges) "Ambiguous source node!"
      g.nodes none = .ok (some s) := inferUnique_filter_singleton g.nodes hsrc
  have h2 : inferUnique (isSinkNode specs g.edges) "Ambiguous sink node!"
      g.nodes none = .ok (some t) := inferUnique_filter_singleton g.nodes hsnk
  have hfin : finalize g specs =
      .ok ({ nodes := out, edges := g.edges, source := some s, sink := some t,
             finalized := true } : GraphS) := by
    simp [finalize, h1, h2, hval, hout, Bind.bind, Except.bind, pure, Except.pure]
  refine ⟨_, hfin, ?_⟩
  obtain ⟨hnodup, hperm, hord⟩ := topo_sort_ok ctx hout
  have hgr : graphRun
      ({ nodes := out, edges := g.edges, source := some s, sink := some t,
         finalized := true } : GraphS) proc args kwargs =
      runLoop proc g.edges (some t) out [(some s, (.direct args, kwargs))] none [] := by
    simp [graphRun]
  refine ⟨hnodup, hperm, fun e he => (hord e he).2.2, ?_, ?_⟩
  · obtain ⟨pre, hpre, htr⟩ := runLoop_trace_prefix out
      [(some s, (BufArgs.direct args, kwargs))] none []
    refine ⟨pre, hpre, ?_⟩
    rw [hgr]
    simpa using htr
  · intro r hr
    rw [hgr] at hr ⊢
    rw [runLoop_ok_trace out _ _ _ r hr]
    simp

/-- Capability of a node whose process is `process(self, default)` with the
single declared output `default` (the Node base class signature). -/
def oneInSpec : NodeSpec :=
  { args := ["default"], numDefaults := 0, varargs := false, keywords := false,
    outputs := ["default"] }

/-- Capability of a source-style node `process(self, default)` declaring the
outputs `default` and `other`. -/
def twoOutSpec : NodeSpec :=
  { args := ["default"], numDefaults := 0, varargs := false, keywords := false,
    outputs := ["default", "other"] }

/-- Concrete two-node pipeline 1 ⟶ 2. -/
def wG : GraphS := { nodes := [1, 2], edges := [{ n1 := 1, n2 := 2 }] }

def wSpecs : Nat → NodeSpec := fun _ => oneInSpec

def wProc : Nat → List Unit → List (String × Unit) → Except PErr (PRet Unit) :=
  fun _ _ _ => .ok (.dict [("default", ())])

theorem pike_c1_dag_runs_once_witness :
    ∃ fg, finalize wG wSpecs = .ok fg ∧
      fg.nodes.Nodup ∧ (∀ n, n ∈ fg.nodes ↔ n ∈ wG.nodes) ∧
      (∀ e ∈ wG.edges, fg.nodes.indexOf e.n1 < fg.nodes.indexOf e.n2) ∧
      (∃ pre, List.IsPrefix pre fg.nodes ∧
        (graphRun fg wProc [] []).1 = pre) ∧
      ∀ r, (graphRun fg wProc [] []).2 = .ok r →
        (graphRun fg wProc [] []).1 = fg.nodes :=
  pike_c1_dag_runs_once wG wSpecs 1 2 wProc [] []
    ⟨by decide, by decide, by decide⟩
    (@acyclic_of_topo_ok wG.nodes wG.edges [1, 2]
      ⟨by decide, by decide, by decide⟩ rfl)
    rfl rfl rfl

/-- Concrete acyclic graph on which the unamended C1 fails: node 1 sends
both its `default` and its `other` output positionally into node 2, whose
process accepts a single positional argument. -/
def cxG : GraphS :=
  { nodes := [1, 2],
    edges := [{ n1 := 1, n2 := 2 },
              { n1 := 1, n2 := 2, output_name := "other" }] }

def cxSpecs : Nat → NodeSpec := fun n => if n = 1 then twoOutSpec else oneInSpec

/-- Capability of a node `process(self, x=None)` with the single declared
output `default`. -/
def kwInSpec : NodeSpec :=
  { args := ["x"], numDefaults := 1, varargs := false, keywords := false,
    outputs := ["default"] }

/-- Concrete two-node graph whose keyword edge names a producer output that
the producer never returns at run time: node 1 feeds its declared `other`
output into keyword `x` of node 2. -/
def kxG : GraphS :=
  { nodes := [1, 2],
    edges := [{ n1 := 1, n2 := 2, output_name := "other",
                input_name := some "x" }] }

def kxSpecs : Nat → NodeSpec := fun n => if n = 1 then twoOutSpec else kwInSpec

/-- Processes of the KeyError counterexample: every process returns
normally; node 1 returns a dict containing only `default`, not `other`. -/
def kxProc : Nat → List String → List (String × String) →
    Except PErr (PRet String) :=
  fun _ _ _ => .ok (.dict [("default", "d")])

/-- The finalized form of `kxG`. -/
def kxFG : GraphS :=
  { nodes := [1, 2],
    edges := [{ n1 := 1, n2 := 2, output_name := "other",
                input_name := some "x" }],
    source := some 1, sink := some 2, finalized := true }

/-- C1 counterexample, in two parts.  Part one: an acyclic graph with
exactly one inferable source and exactly one inferable sink on which
finalize nevertheless raises — per-node signature validation rejects two
positional inputs into a one-positional-argument process.  Part two: a
graph that passes every finalize check, yet whose run() aborts with a
KeyError (graph.py 350) after invoking only node 1: the keyword edge asks
for the producer output `other`, which the returned dict lacks.  No node
process raises there — the `RunErr.fatal` constructor is produced only by
the run loop itself, never by `run_node`, which maps process exceptions to
`stop` or `nodeError` — yet node 2 never executes.  Together these refute
the claim that acyclicity plus unique inferable source and sink alone make
finalize succeed and make every non-process-raising run execute every
node. -/
theorem pike_c1_counterexample :
    (Acyclic cxG.edges ∧
     cxG.nodes.filter (isSourceNode cxSpecs cxG.edges) = [1] ∧
     cxG.nodes.filter (isSinkNode cxSpecs cxG.edges) = [2] ∧
     finalize cxG cxSpecs = .error "Too many unnamed edge inputs") ∧
    (Acyclic kxG.edges ∧
     kxG.nodes.filter (isSourceNode kxSpecs kxG.edges) = [1] ∧
     kxG.nodes.filter (isSinkNode kxSpecs kxG.edges) = [2] ∧
     finalize kxG kxSpecs = .ok kxFG ∧
     graphRun kxFG kxProc [] [] = ([1], .error (.fatal "KeyError"))) :=
  ⟨⟨@acyclic_of_topo_ok cxG.nodes cxG.edges [1, 2]
      ⟨by decide, by decide, by decide⟩ rfl,
    by decide, by decide, rfl⟩,
   ⟨@acyclic_of_topo_ok kxG.nodes kxG.edges [1, 2]
      ⟨by decide, by decide, by decide⟩ rfl,
    by decide, by decide, rfl, rfl⟩⟩

/-- Concrete cyclic two-node graph 1 ⟶ 2 ⟶ 1. -/
def cyG : GraphS :=
  { nodes := [1, 2],
    edges := [{ n1 := 1, n2 := 2 }, { n1 := 2, n2 := 1 }] }

theorem pike_c2_cycle_finalize_error_witness :
    (∃ msg, finalize cyG wSpecs = .error msg) ∧
      (cyG.finalized = false →
        (graphRun cyG wProc [] []).1 = [] ∧
          ∃ err, (graphRun cyG wProc [] []).2 = .error err) :=
  pike_c2_cycle_finalize_error cyG wSpecs wProc [] []
    ⟨by decide, by decide, by decide⟩
    ⟨1, Relation.TransGen.head ⟨{ n1 := 1, n2 := 2 }, by decide, rfl, rfl⟩
        (Relation.TransGen.single ⟨{ n1 := 2, n2 := 1 }, by decide, rfl, rfl⟩)⟩

/-- The two-node pipeline in its finalized state. -/
def wGF : GraphS :=
  { nodes := [1, 2], edges := [{ n1 := 1, n2 := 2 }],
    source := some 1, sink := some 2, finalized := true }

theorem pike_c10_run_unfinalized_witness :
    graphRun wG wProc [] [] =
      ([], .error (.fatal "Must call finalize() before running")) ∧
    graphRun (graphEnter wGF) wProc [] [] =
      ([], .error (.fatal "Must call finalize() before running")) :=
  pike_c10_run_unfinalized wG wGF wProc [] [] rfl

/-- The per-node state Node.connect touches: the node id and its edge
lists. -/
structure NodeBuf where
  id : Nat
  eout : List Edge
  ein : List Edge
deriving DecidableEq, Repr

/-- Node.connect (nodes/base.py 331-370).  The result carries the outcome
together with the source node outbound-edge list and the sink node
inbound-edge list after the call.  In the `'*'`-output branch the sink is
wrapped in an XargsNode (id `freshId`) that aliases the sink edge lists, so
an append through the wrapper lands in the sink list, and the created edge
points at the wrapper; the input name is forced to `'*'`.  Both appends sit
after every check, as in the source, so on a raised ValidationError both
returned lists equal the inputs. -/
def connect (self other : NodeBuf) (freshId : Nat) (output_name : String)
    (input_name : Option String) :
    Except String Edge × List Edge × List Edge :=
  let wrapped := output_name = "*" ∧ input_name ≠ some "*"
  let sinkId := if wrapped then freshId else other.id
  let iname := if wrapped then some "*" else input_name
  if input_name = some "*" ∧ output_name ≠ "*" then
    (.error "cannot use star for input edge without star as the output edge",
      self.eout, other.ein)
  else if self.eout.any (fun e => e.output_name == output_name) then
    (.error "Cannot double-assign output", self.eout, other.ein)
  else if iname ≠ none ∧ other.ein.any (fun e => e.input_name == iname) then
    (.error "Cannot double-assign input", self.eout, other.ein)
  else
    let e : Edge := { n1 := self.id, n2 := sinkId, output_name := output_name,
                      input_name := iname }
    (.ok e, self.eout ++ [e], other.ein ++ [e])

/-- C9: connect rejects a duplicate output name on the source (and a
duplicate string input name on the sink) with a ValidationError raised
before any mutation: the returned edge lists are exactly the ones passed
in, and no edge is attached. -/
theorem pike_c9_connect_duplicate_rejected (self other : NodeBuf)
    (freshId : Nat) (output_name : String) (input_name : Option String) :
    ((∃ e ∈ self.eout, e.output_name = output_name) →
      ∃ msg, connect self other freshId output_name input_name =
        (.error msg, self.eout, other.ein)) ∧
    (∀ s : String, input_name = some s → s ≠ "*" → output_name ≠ "*" →
      (∃ e ∈ other.ein, e.input_name = some s) →
      (∀ e ∈ self.eout, e.output_name ≠ output_name) →
      ∃ msg, connect self other freshId output_name input_name =
        (.error msg, self.eout, other.ein)) := by
  constructor
  · intro ⟨e, he, hname⟩
    by_cases hstar : input_name = some "*" ∧ output_name ≠ "*"
    · refine ⟨"cannot use star for input edge without star as the output edge", ?_⟩
      simp only [connect]
      rw [if_pos hstar]
    · refine ⟨"Cannot double-assign output", ?_⟩
      have hdup : (self.eout.any fun e => e.output_name == output_name) = true := by
        rw [List.any_eq_true]
        exact ⟨e, he, by simp [hname]⟩
      simp only [connect]
      rw [if_neg hstar, if_pos hdup]
  · intro s hin hs hout ⟨e, he, hname⟩ hnodup
    have hstar : ¬(input_name = some "*" ∧ output_name ≠ "*") := by
      rintro ⟨h1, _⟩
      rw [hin] at h1
      exact hs (Option.some.inj h1)
    have hdup : ¬(self.eout.any fun e => e.output_name == output_name) = true := by
      rw [List.any_eq_true]
      rintro ⟨e2, he2, hb⟩
      exact hnodup e2 he2 (by simpa using hb)
    have hwrap : ¬(output_name = "*" ∧ input_name ≠ some "*") := by
      rintro ⟨h1, _⟩
      exact hout h1
    have hindup : input_name ≠ none ∧
        (other.ein.any fun e => e.input_name == input_name) = true := by
      constructor
      · rw [hin]
        simp
      · rw [List.any_eq_true]
        exact ⟨e, he, by simp [hname, hin]⟩
    refine ⟨"Cannot double-assign input", ?_⟩
    simp only [connect, if_neg hwrap]
    rw [if_neg hstar, if_neg hdup, if_pos hindup]

/-- Duplicate-output node buffer: node 1 already owns a `default` outbound
edge. -/
def nbA : NodeBuf := { id := 1, eout := [{ n1 := 1, n2 := 2 }], ein := [] }

/-- Sink node buffer with an inbound edge on input name `x`. -/
def nbB : NodeBuf :=
  { id := 2, eout := [], ein := [{ n1 := 1, n2 := 2, input_name := some "x" }] }

theorem pike_c9_connect_duplicate_rejected_witness :
    (∃ msg, connect nbA nbB 99 "default" none =
      (.error msg, nbA.eout, nbB.ein)) ∧
    (∃ msg, connect nbA nbB 99 "other" (some "x") =
      (.error msg, nbA.eout, nbB.ein)) :=
  ⟨(pike_c9_connect_duplicate_rejected nbA nbB 99 "default" none).1
      ⟨{ n1 := 1, n2 := 2 }, by decide, rfl⟩,
   (pike_c9_connect_duplicate_rejected nbA nbB 99 "other" (some "x")).2 "x" rfl
      (by decide) (by decide)
      ⟨{ n1 := 1, n2 := 2, input_name := some "x" }, by decide, rfl⟩
      (by decide)⟩

/-- Capability of PlaceholderNode: `process(self, *args, **kwargs)`, outputs
`('*')`. -/
def placeholderSpec : NodeSpec :=
  { args := [], numDefaults := 0, varargs := true, keywords := true,
    outputs := ["*"] }

/-- A source item at the watch layer: its identifying path and the content
the fingerprint functions read. -/
structure FItem where
  fullpath : String
  content : Nat
deriving DecidableEq, Repr

/-- The per-item loop body of ChangeListenerNode.process (watch.py 75-80):
an item whose fingerprint differs from (or is absent from) the stored map
updates the map and joins the changed list; every item joins the all
list. -/
def listenStep (fp : FItem → Nat)
    (acc : List (String × Nat) × List FItem × List FItem) (item : FItem) :
    List (String × Nat) × List FItem × List FItem :=
  if dget acc.1 item.fullpath ≠ some (fp item) then
    (dset acc.1 item.fullpath (fp item), acc.2.1 ++ [item], acc.2.2 ++ [item])
  else
    (acc.1, acc.2.1, acc.2.2 ++ [item])

/-- ChangeListenerNode.process (watch.py 72-88) over the in-memory checksum
map: returns the updated map with the changed (`default`) and `all` output
lists, or raises StopProcessing when nothing changed and `stop` is set. -/
def changeListener (stop : Bool) (fp : FItem → Nat)
    (checksums : List (String × Nat)) (stream : List FItem) :
    Except PErr (List (String × Nat) × List FItem × List FItem) :=
  if ((stream.foldl (listenStep fp) (checksums, [], [])).2.1.isEmpty ∧ stop) then
    .error .stop
  else .ok (stream.foldl (listenStep fp) (checksums, [], []))

/-- An item counts as changed against a checksum map when its fingerprint
differs from or is absent from the map. -/
def chg (fp : FItem → Nat) (cs : List (String × Nat)) (it : FItem) : Bool :=
  decide (dget cs it.fullpath ≠ some (fp it))

theorem listen_fold_char (fp : FItem → Nat) :
    ∀ (stream : List FItem) (cs : List (String × Nat)) (ch0 al0 : List FItem),
      (stream.map FItem.fullpath).Nodup →
      (stream.foldl (listenStep fp) (cs, ch0, al0)).2.1 =
          ch0 ++ stream.filter (chg fp cs) ∧
      (stream.foldl (listenStep fp) (cs, ch0, al0)).2.2 = al0 ++ stream ∧
      (∀ it ∈ stream,
        dget (stream.foldl (listenStep fp) (cs, ch0, al0)).1 it.fullpath =
          some (fp it)) ∧
      (∀ p, (∀ it ∈ stream, it.fullpath ≠ p) →
        dget (stream.foldl (listenStep fp) (cs, ch0, al0)).1 p = dget cs p) := by
  intro stream
  induction stream with
  | nil =>
    intro cs ch0 al0 _
    refine ⟨by simp, by simp, ?_, ?_⟩
    · intro it hit
      exact absurd hit (List.not_mem_nil it)
    · intro p _
      rfl
  | cons it rest ih =>
    intro cs ch0 al0 hnodup
    rw [List.map_cons] at hnodup
    have hrest_nodup : (rest.map FItem.fullpath).Nodup := (List.nodup_cons.mp hnodup).2
    have hnotin : ∀ it2 ∈ rest, it2.fullpath ≠ it.fullpath := by
      intro it2 hit2 hc
      exact (List.nodup_cons.mp hnodup).1
        (hc ▸ List.mem_map_of_mem FItem.fullpath hit2)
    by_cases hch : dget cs it.fullpath ≠ some (fp it)
    · have hstep : listenStep fp (cs, ch0, al0) it =
          (dset cs it.fullpath (fp it), ch0 ++ [it], al0 ++ [it]) := by
        simp [listenStep, hch]
      have hfilter_eq : rest.filter (chg fp (dset cs it.fullpath (fp it))) =
          rest.filter (chg fp cs) := by
        refine List.filter_congr ?_
        intro x hx
        have hne : it.fullpath ≠ x.fullpath := fun hc => hnotin x hx hc.symm
        simp [chg, dget_dset_ne cs (fp it) hne]
      obtain ⟨ihc, iha, ihm, ihp⟩ :=
        ih (dset cs it.fullpath (fp it)) (ch0 ++ [it]) (al0 ++ [it]) hrest_nodup
      refine ⟨?_, ?_, ?_, ?_⟩
      · rw [List.foldl_cons, hstep, ihc, hfilter_eq]
        have : List.filter (chg fp cs) (it :: rest) =
            it :: rest.filter (chg fp cs) := by
          rw [List.filter_cons]
          simp [chg, hch]
        rw [this]
        simp
      · rw [List.foldl_cons, hstep, iha]
        simp
      · intro it2 hit2
        rw [List.foldl_cons, hstep]
        rcases List.mem_cons.mp hit2 with h1 | h1
        · subst h1
          rw [ihp it2.fullpath (fun it3 hit3 => hnotin it3 hit3)]
          exact dget_dset_self cs it2.fullpath (fp it2)
        · exact ihm it2 h1
      · intro p hp
        rw [List.foldl_cons, hstep]
        rw [ihp p (fun it3 hit3 => hp it3 (List.mem_cons_of_mem it hit3))]
        exact dget_dset_ne cs (fp it) (hp it (List.mem_cons_self it rest))
    · have hstep : listenStep fp (cs, ch0, al0) it = (cs, ch0, al0 ++ [it]) := by
        simp [listenStep, hch]
      obtain ⟨ihc, iha, ihm, ihp⟩ := ih cs ch0 (al0 ++ [it]) hrest_nodup
      refine ⟨?_, ?_, ?_, ?_⟩
      · rw [List.foldl_cons, hstep, ihc]
        have : List.filter (chg fp cs) (it :: rest) = rest.filter (chg fp cs) := by
          rw [List.filter_cons]
          simp [chg, hch]
        rw [this]
      · rw [List.foldl_cons, hstep, iha]
        simp
      · intro it2 hit2
        rw [List.foldl_cons, hstep]
        rcases List.mem_cons.mp hit2 with h1 | h1
        · subst h1
          rw [ihp it2.fullpath (fun it3 hit3 => hnotin it3 hit3)]
          simpa using not_not.mp hch
        · exact ihm it2 h1
      · intro p hp
        rw [List.foldl_cons, hstep]
        exact ihp p (fun it3 hit3 => hp it3 (List.mem_cons_of_mem it hit3))

theorem listen_fold_unchanged (fp : FItem → Nat) :
    ∀ (stream : List FItem) (cs : List (String × Nat)) (ch0 al0 : List FItem),
      (∀ it ∈ stream, dget cs it.fullpath = some (fp it)) →
      stream.foldl (listenStep fp) (cs, ch0, al0) = (cs, ch0, al0 ++ stream) := by
  intro stream
  induction stream with
  | nil => intro cs ch0 al0 _; simp
  | cons it rest ih =>
    intro cs ch0 al0 hall
    have hstep : listenStep fp (cs, ch0, al0) it = (cs, ch0, al0 ++ [it]) := by
      simp [listenStep, hall it (List.mem_cons_self it rest)]
    rw [List.foldl_cons, hstep,
      ih cs ch0 (al0 ++ [it]) (fun it2 h2 => hall it2 (List.mem_cons_of_mem it h2))]
    simp

/-- C6: over a stream of items with distinct paths, a run of the
ChangeListener puts an item on the changed (`default`) output exactly when
its fingerprint differs from or is absent from the stored map, records the
new fingerprints, and puts every item on the `all` output; a second run
over identical content yields an empty changed output, and with `stop` set
the second run raises StopProcessing. -/
theorem pike_c6_change_listener (stop1 : Bool) (fp : FItem → Nat)
    (checksums : List (String × Nat)) (stream : List FItem)
    (cs1 : List (String × Nat)) (ch1 al1 : List FItem)
    (hnodup : (stream.map FItem.fullpath).Nodup)
    (h1 : changeListener stop1 fp checksums stream = .ok (cs1, ch1, al1)) :
    ch1 = stream.filter (chg fp checksums) ∧
    al1 = stream ∧
    (∀ it ∈ stream, dget cs1 it.fullpath = some (fp it)) ∧
    changeListener false fp cs1 stream = .ok (cs1, [], stream) ∧
    changeListener true fp cs1 stream = .error .stop := by
  obtain ⟨hc, ha, hm, _⟩ := listen_fold_char fp stream checksums [] [] hnodup
  have hfold : stream.foldl (listenStep fp) (checksums, [], []) = (cs1, ch1, al1) := by
    unfold changeListener at h1
    by_cases hco : ((stream.foldl (listenStep fp) (checksums, [], [])).2.1.isEmpty
        = true ∧ stop1 = true)
    · rw [if_pos hco] at h1
      exact absurd h1 (by simp)
    · rw [if_neg hco] at h1
      exact Except.ok.inj h1
  rw [hfold] at hc ha hm
  simp only at hc ha hm
  have hm2 : ∀ it ∈ stream, dget cs1 it.fullpath = some (fp it) := hm
  have hfold2 : stream.foldl (listenStep fp) (cs1, [], []) = (cs1, [], stream) := by
    have := listen_fold_unchanged fp stream cs1 [] [] hm2
    simpa using this
  refine ⟨by simpa using hc, by simpa using ha, hm2, ?_, ?_⟩
  · unfold changeListener
    rw [hfold2]
    simp
  · unfold changeListener
    rw [hfold2]
    simp

theorem pike_c6_change_listener_witness :
    ([⟨"foo", 1⟩, ⟨"bar", 2⟩] : List FItem).filter
        (chg FItem.content []) = [⟨"foo", 1⟩, ⟨"bar", 2⟩] ∧
    changeListener false FItem.content [("foo", 1), ("bar", 2)]
        [⟨"foo", 1⟩, ⟨"bar", 2⟩] =
      .ok ([("foo", 1), ("bar", 2)], [], [⟨"foo", 1⟩, ⟨"bar", 2⟩]) ∧
    changeListener true FItem.content [("foo", 1), ("bar", 2)]
        [⟨"foo", 1⟩, ⟨"bar", 2⟩] = .error .stop := by
  have h := pike_c6_change_listener true FItem.content []
    [⟨"foo", 1⟩, ⟨"bar", 2⟩] [("foo", 1), ("bar", 2)]
    [⟨"foo", 1⟩, ⟨"bar", 2⟩] [⟨"foo", 1⟩, ⟨"bar", 2⟩] (by decide) rfl
  exact ⟨h.1.symm, h.2.2.2.1, h.2.2.2.2⟩

def allSuffix : String := "_all"

/-- Python str.endswith, evaluated character-wise. -/
def strEndsWith (s suffix : String) : Bool :=
  List.isSuffixOf suffix.data s.data

/-- The per-branch loop body of ChangeEnforcerNode.process (watch.py
109-117): `_all` entries are skipped, a nonempty branch stream marks
changes, and the forwarded output is the branch `_all` stream when one was
wired in, else the branch stream itself.  `lookup` is the full keyword
dict the loop reads from. -/
def enforceStep (lookup : List (String × List FItem))
    (acc : List (String × List FItem) × Bool) (p : String × List FItem) :
    List (String × List FItem) × Bool :=
  if strEndsWith p.1 allSuffix then acc
  else (acc.1 ++ [(p.1, (dget lookup (p.1 ++ allSuffix)).getD p.2)],
        acc.2 || !p.2.isEmpty)

/-- ChangeEnforcerNode.process (watch.py 106-120): raise StopProcessing
when no branch saw a change, else forward each branch's configured
output. -/
def changeEnforcer (kwargs : List (String × List FItem)) :
    Except PErr (List (String × List FItem)) :=
  if !(kwargs.foldl (enforceStep kwargs) ([], false)).2 then .error .stop
  else .ok (kwargs.foldl (enforceStep kwargs) ([], false)).1

theorem enforce_fold_char (lookup : List (String × List FItem)) :
    ∀ (l : List (String × List FItem)) (r0 : List (String × List FItem)) (b0 : Bool),
      (l.foldl (enforceStep lookup) (r0, b0)).1 =
        r0 ++ l.filterMap (fun p =>
          if strEndsWith p.1 allSuffix then none
          else some (p.1, (dget lookup (p.1 ++ allSuffix)).getD p.2)) ∧
      (l.foldl (enforceStep lookup) (r0, b0)).2 =
        (b0 || l.any (fun p => !strEndsWith p.1 allSuffix && !p.2.isEmpty)) := by
  intro l
  induction l with
  | nil => intro r0 b0; simp
  | cons p rest ih =>
    intro r0 b0
    by_cases hall : strEndsWith p.1 allSuffix
    · have hstep : enforceStep lookup (r0, b0) p = (r0, b0) := by
        simp [enforceStep, hall]
      obtain ⟨ih1, ih2⟩ := ih r0 b0
      refine ⟨?_, ?_⟩
      · rw [List.foldl_cons, hstep, ih1, List.filterMap_cons]
        simp [hall]
      · rw [List.foldl_cons, hstep, ih2, List.any_cons]
        simp [hall]
    · have hstep : enforceStep lookup (r0, b0) p =
          (r0 ++ [(p.1, (dget lookup (p.1 ++ allSuffix)).getD p.2)],
            b0 || !p.2.isEmpty) := by
        simp [enforceStep, hall]
      obtain ⟨ih1, ih2⟩ := ih (r0 ++ [(p.1, (dget lookup (p.1 ++ allSuffix)).getD p.2)])
        (b0 || !p.2.isEmpty)
      refine ⟨?_, ?_⟩
      · rw [List.foldl_cons, hstep, ih1, List.filterMap_cons]
        simp [hall]
      · rw [List.foldl_cons, hstep, ih2, List.any_cons]
        simp [hall, Bool.or_assoc]

/-- C7: the ChangeEnforcer raises StopProcessing exactly when every
listener branch reported zero changed items, and otherwise forwards each
branch's configured output: the branch's `all` stream when one was wired
in under `name_all`, else the branch's changed stream. -/
theorem pike_c7_change_enforcer (kwargs : List (String × List FItem)) :
    (changeEnforcer kwargs = .error .stop ↔
      ∀ p ∈ kwargs, ¬ strEndsWith p.1 allSuffix → p.2 = []) ∧
    ∀ ret, changeEnforcer kwargs = .ok ret →
      ret = kwargs.filterMap (fun p =>
        if strEndsWith p.1 allSuffix then none
        else some (p.1, (dget kwargs (p.1 ++ allSuffix)).getD p.2)) := by
  obtain ⟨h1, h2⟩ := enforce_fold_char kwargs kwargs [] false
  simp only [List.nil_append] at h1
  constructor
  · constructor
    · intro herr
      unfold changeEnforcer at herr
      split at herr
      · rename_i hcond
        rw [h2] at hcond
        simp only [Bool.false_or, Bool.not_eq_true'] at hcond
        intro p hp hends
        have hb := List.any_eq_false.mp hcond p hp
        have hent : strEndsWith p.1 allSuffix = false := by
          simpa using hends
        rw [hent] at hb
        simpa using hb
      · exact absurd herr (by simp)
    · intro hall
      have hcond : (kwargs.foldl (enforceStep kwargs) ([], false)).2 = false := by
        rw [h2]
        simp only [Bool.false_or]
        rw [List.any_eq_false]
        intro p hp
        by_cases hends : strEndsWith p.1 allSuffix
        · simp [hends]
        · simp [hends, hall p hp hends]
      unfold changeEnforcer
      rw [hcond]
      rfl
  · intro ret hret
    unfold changeEnforcer at hret
    split at hret
    · exact absurd hret (by simp)
    · rw [← h1]
      exact (Except.ok.inj hret).symm

def iA : FItem := ⟨"a", 1⟩

def iB : FItem := ⟨"b", 2⟩

/-- Two listener branches: branch 0 reports no changed items but has an
`all` stream wired in; branch 1 reports one changed item. -/
def c7Two : List (String × List FItem) := [("0", []), ("0_all", [iA]), ("1", [iB])]

/-- Both branches report zero changed items. -/
def c7Zero : List (String × List FItem) := [("0", []), ("0_all", [iA]), ("1", [])]

theorem pike_c7_change_enforcer_witness :
    changeEnforcer c7Zero = .error .stop ∧
    ([("0", [iA]), ("1", [iB])] : List (String × List FItem)) =
      c7Two.filterMap (fun p =>
        if strEndsWith p.1 allSuffix then none
        else some (p.1, (dget c7Two (p.1 ++ allSuffix)).getD p.2)) :=
  ⟨(pike_c7_change_enforcer c7Zero).1.mpr (by decide),
   (pike_c7_change_enforcer c7Two).2 [("0", [iA]), ("1", [iB])] rfl⟩

/-- An item of a graph result at the Environment level: a FileMeta item
carrying its logical filename and generated fullpath, or any other
value. -/
inductive RItem where
  | file (filename fullpath : String)
  | plain
deriving DecidableEq, Repr

/-- The Environment state the modelled operations touch (env.py 223-242,
in-memory cache variant): the watch flag, the name → cached-result map and
the generated-file registry. -/
structure Env where
  watch : Bool
  cache : List (String × List (String × List RItem))
  gen_files : List (String × String)
deriving DecidableEq, Repr

/-- The registry-update loop of Environment.run (env.py 332-338): record
the fullpath of every FileMeta output item under its filename (the
del-item-data memory saving has no observable effect here). -/
def recordFiles (gf : List (String × String))
    (results : List (String × List RItem)) : List (String × String) :=
  results.foldl (fun gf p => p.2.foldl (fun gf it =>
    match it with
    | .file fn fp => dset gf fn fp
    | .plain => gf) gf) gf

/-- Environment.run (env.py 306-358).  `outcome` is what
`self._graphs[name].run()` returns or raises on this call (mutable node
state and the file system hide behind it); `handled` is whether an
installed exception handler reports a node-annotated error as handled.
Returns the new environment state, whether the graph was executed, and the
returned value (`self._cache.get(name)`) or the re-raised error. -/
def envRun (env : Env) (nm : String) (bust : Bool)
    (outcome : Except RunErr (List (String × List RItem))) (handled : Bool) :
    Env × Bool × Except RunErr (Option (List (String × List RItem))) :=
  if bust ∨ env.watch ∨ dget env.cache nm = none then
    match outcome with
    | .ok results =>
      (⟨env.watch, dset env.cache nm results, recordFiles env.gen_files results⟩,
        true,
        .ok (dget (dset env.cache nm results) nm))
    | .error .stop => (env, true, .ok (dget env.cache nm))
    | .error (.nodeError n msg) =>
      if handled then (env, true, .ok (dget env.cache nm))
      else (env, true, .error (.nodeError n msg))
    | .error (.fatal msg) => (env, true, .error (.fatal msg))
  else
    (env, false, .ok (dget env.cache nm))

/-- Environment.lookup (env.py 442-461): a pure registry lookup.  It never
re-runs a graph (its result depends on nothing but the registry), never
checks the disk, and never consults the watch flag. -/
def envLookup (env : Env) (path : String) : Option String :=
  match dget env.gen_files path with
  | none => none
  | some fullpath => some fullpath

/-- A watch-mode environment holding a cached result for graph `g`,
mirroring the state right after a first `run`. -/
def c4EnvWatch : Env :=
  { watch := true, cache := [("g", [("default", [RItem.plain])])], gen_files := [] }

/-- The same cached state with watch off. -/
def c4EnvCached : Env :=
  { watch := false, cache := [("g", [("default", [RItem.plain])])], gen_files := [] }

/-- A different graph result, standing for mutated source data. -/
def c4Alt : List (String × List RItem) := [("default", [RItem.plain, RItem.plain])]

/-- C4 (code evaluated at the failing input): with `bust` false and watch
off, a cached name is returned unchanged without executing the graph — for
every `outcome`, i.e. however the underlying source data changed; the
graph executes exactly when `bust` is set, watch is on, or no cached result
exists; and watch-mode re-execution is not throttled: there is no time or
interval anywhere in the state, and two back-to-back watch-mode calls both
execute. -/
theorem pike_c4_env_run_cache :
    (∀ (outcome : Except RunErr (List (String × List RItem))) (handled : Bool),
      envRun c4EnvCached "g" false outcome handled =
        (c4EnvCached, false, .ok (some [("default", [RItem.plain])]))) ∧
    (∀ (env : Env) (nm : String) (bust : Bool)
        (outcome : Except RunErr (List (String × List RItem))) (handled : Bool),
      (envRun env nm bust outcome handled).2.1 =
        (bust || env.watch || (dget env.cache nm).isNone)) ∧
    ((envRun c4EnvWatch "g" false (.ok c4Alt) true).2.1 = true ∧
      (envRun (envRun c4EnvWatch "g" false (.ok c4Alt) true).1 "g" false
        (.ok c4Alt) true).2.1 = true) := by
  refine ⟨?_, ?_, by decide⟩
  · intro outcome handled
    have hnone : ¬(false = true ∨ c4EnvCached.watch = true ∨
        dget c4EnvCached.cache "g" = none) := by
      decide
    simp only [envRun]
    rw [if_neg (by simpa using hnone)]
    rfl
  · intro env nm bust outcome handled
    by_cases h : bust ∨ env.watch ∨ dget env.cache nm = none
    · have hb : (bust || env.watch || (dget env.cache nm).isNone) = true := by
        rcases h with h | h | h
        · simp [h]
        · simp [h]
        · simp [h, Option.isNone_iff_eq_none]
      rw [hb]
      simp only [envRun, if_pos h]
      cases outcome with
      | ok results => rfl
      | error err =>
        cases err with
        | stop => rfl
        | nodeError n msg =>
          by_cases hh : handled = true
          · simp [hh]
          · simp [hh]
        | fatal msg => rfl
    · push_neg at h
      have hb1 : bust = false := by simpa using h.1
      have hb2 : env.watch = false := by simpa using h.2.1
      have hb3 : (dget env.cache nm).isNone = false := by
        cases hd : dget env.cache nm with
        | none => exact absurd hd h.2.2
        | some v => rfl
      have h2 : ¬(bust = true ∨ env.watch = true ∨ dget env.cache nm = none) := by
        simp [hb1, hb2, h.2.2]
      simp only [envRun, if_neg h2]
      rw [hb1, hb2, hb3]
      rfl

/-- C8: a StopProcessing signal escaping the graph run is not an error:
Environment.run catches it, leaves the environment (in particular the
cached result of that name) unchanged, and returns the prior cached
result.  This holds for every environment, name and bust flag. -/
theorem pike_c8_stop_processing_recovered (env : Env) (nm : String)
    (bust : Bool) (handled : Bool) :
    envRun env nm bust (.error .stop) handled =
      (env, (bust || env.watch || (dget env.cache nm).isNone),
        .ok (dget env.cache nm)) := by
  by_cases h : bust ∨ env.watch ∨ dget env.cache nm = none
  · have hb : (bust || env.watch || (dget env.cache nm).isNone) = true := by
      rcases h with h | h | h
      · simp [h]
      · simp [h]
      · simp [h, Option.isNone_iff_eq_none]
    simp only [envRun, if_pos h, hb]
  · push_neg at h
    have hb1 : bust = false := by simpa using h.1
    have hb2 : env.watch = false := by simpa using h.2.1
    have hb3 : (dget env.cache nm).isNone = false := by
      cases hd : dget env.cache nm with
      | none => exact absurd hd h.2.2
      | some v => rfl
    have h2 : ¬(bust = true ∨ env.watch = true ∨ dget env.cache nm = none) := by
      simp [hb1, hb2, h.2.2]
    simp only [envRun, if_neg h2]
    rw [hb1, hb2, hb3]
    rfl

/-- C3 (code evaluated at the failing input): lookup is a pure registry
read — it returns the not-found indicator for an unregistered path and the
registered fullpath otherwise, ignores the watch flag entirely (the state
it returns is untouched and no graph execution is reachable from it), and
in particular returns none in the `test_lookup_missing_watch` scenario —
watch mode on, graphs never run — where the repository test and spec
expect a forced re-run and the generated path. -/
theorem pike_c3_lookup_pure_registry :
    (∀ (env : Env) (path : String), envLookup env path = dget env.gen_files path) ∧
    (∀ (env : Env) (path : String) (w : Bool),
      envLookup ⟨w, env.cache, env.gen_files⟩ path = envLookup env path) ∧
    envLookup ⟨true, [], []⟩ "foo" = none := by
  refine ⟨?_, ?_, rfl⟩
  · intro env path
    unfold envLookup
    cases dget env.gen_files path with
    | none => rfl
    | some fp => rfl
  · intro env path w
    rfl

end Pike
